import Mathlib

/- Verification of the coin selection orchestrator of selectcoin.rs.
   The orchestrator select_coin and its shared-state merge step are translated
   directly from the source.  The data model (types module) and the five
   strategy functions are not part of the available source, so they are
   modelled from the specification: the strategies appear as parameters of
   type CoinSelectionFn, constrained where needed by predicates taken from
   the specification text.

   A note on the execution order: in the source, each loop iteration opens a
   thread scope, spawns a single worker and waits for it before the next
   iteration starts, so the five strategy outcomes are merged into the shared
   state strictly in list order.  The fold below is therefore an exact model
   of the observable behaviour of the loop. -/

/-- Modelled from the spec: section 3, Candidate Coin (OutputGroup); the types
module is not part of the available source. -/
structure OutputGroup where
  value : Nat
  weight : Nat
  input_count : Nat
  creation_sequence : Option Nat
  deriving DecidableEq

/-- Modelled from the spec: section 3, policy for leftover value when no change
output is created. -/
inductive ExcessStrategy where
  | toFee
  | toRecipient
  | toChange
  deriving DecidableEq

/-- Modelled from the spec: section 3, Selection Options (CoinSelectionOpt);
feerates are modelled as rationals. -/
structure CoinSelectionOpt where
  target_value : Nat
  target_feerate : ℚ
  long_term_feerate : Option ℚ
  min_absolute_fee : Nat
  base_weight : Nat
  change_weight : Nat
  change_cost : Nat
  avg_input_weight : Nat
  avg_output_weight : Nat
  min_change_value : Nat
  excess_strategy : ExcessStrategy

/-- Modelled from the spec: the waste metric is a single scalar cost; in the
source it is a newtype around an unsigned integer, read through field 0. -/
structure WasteMetric where
  val : Nat
  deriving DecidableEq

/-- Modelled from the spec: section 3, Selection Output. -/
structure SelectionOutput where
  selected_inputs : List Nat
  waste : WasteMetric
  deriving DecidableEq

/-- Modelled from the spec: sections 3 and 7, the closed set of failure kinds:
insufficient total funds, or no solution found by a bounded search. -/
inductive SelectionError where
  | insufficientFunds
  | noSolutionFound
  deriving DecidableEq

/-- Translation of the CoinSelectionFn type alias of selectcoin.rs. -/
def CoinSelectionFn : Type :=
  List OutputGroup → CoinSelectionOpt → Except SelectionError SelectionOutput

/-- Translation of the SharedState struct of selectcoin.rs. -/
structure SharedState where
  result : Except SelectionError SelectionOutput
  any_success : Bool

/-- Translation of the initial shared state of select_coin (lines 37 to 40). -/
def initialSharedState : SharedState :=
  { result := .error SelectionError.noSolutionFound, any_success := false }

/-- Translation of the inline comparison on lines 49 to 52 of selectcoin.rs: a
fresh success replaces the stored result when the stored result is a failure or
when the fresh waste is strictly smaller. -/
def isImprovement (current : Except SelectionError SelectionOutput)
    (fresh : SelectionOutput) : Bool :=
  match current with
  | .ok current_best => decide (fresh.waste.val < current_best.waste.val)
  | .error _ => true

/-- Translation of the body of each worker after it obtains the lock (lines 47
to 63 of selectcoin.rs): merge one strategy outcome into the shared state. -/
def mergeOutcome (state : SharedState)
    (result : Except SelectionError SelectionOutput) : SharedState :=
  match result with
  | .ok selection_output =>
      if isImprovement state.result selection_output then
        { result := .ok selection_output, any_success := true }
      else
        state
  | .error e =>
      if e = SelectionError.insufficientFunds ∧ state.any_success = false then
        { state with result := .error SelectionError.insufficientFunds }
      else
        state

/-- Translation of select_coin of selectcoin.rs: the loop spawns one worker per
algorithm and waits for it before the next iteration, so the outcomes are
merged into the shared state in list order; the function finally returns the
result field of the shared state. -/
def select_coin
    (select_coin_bnb select_coin_fifo select_coin_lowestlarger
      select_coin_srd select_coin_knapsack : CoinSelectionFn)
    (inputs : List OutputGroup) (options : CoinSelectionOpt) :
    Except SelectionError SelectionOutput :=
  let algorithms : List CoinSelectionFn :=
    [select_coin_bnb, select_coin_fifo, select_coin_lowestlarger,
      select_coin_srd, select_coin_knapsack]
  (algorithms.foldl
    (fun state algorithm => mergeOutcome state (algorithm inputs options))
    initialSharedState).result

/-- Folding the merge step over a list of strategy outcomes from a given
state; reasoning device for the loop of select_coin. -/
def runMerge (outcomes : List (Except SelectionError SelectionOutput))
    (s : SharedState) : SharedState :=
  outcomes.foldl mergeOutcome s

/-- Successfulness of an outcome, mirroring Result.is_ok. -/
def isSuccess : Except SelectionError SelectionOutput → Bool
  | .ok _ => true
  | .error _ => false

/-- Invariant of the shared state: the success flag agrees with the stored
result being a success.  It holds initially and is preserved by the merge. -/
def StateInv (s : SharedState) : Prop :=
  s.any_success = isSuccess s.result

theorem stateInv_initial : StateInv initialSharedState := rfl

theorem isImprovement_on_ok (b o : SelectionOutput) :
    isImprovement (.ok b) o = decide (o.waste.val < b.waste.val) := rfl

theorem isImprovement_on_error (e : SelectionError) (o : SelectionOutput) :
    isImprovement (.error e) o = true := rfl

theorem mergeOutcome_on_ok (s : SharedState) (o : SelectionOutput) :
    mergeOutcome s (.ok o) =
      if isImprovement s.result o then
        { result := .ok o, any_success := true }
      else s := rfl

theorem mergeOutcome_on_error (s : SharedState) (e : SelectionError) :
    mergeOutcome s (.error e) =
      if e = SelectionError.insufficientFunds ∧ s.any_success = false then
        { s with result := .error SelectionError.insufficientFunds }
      else s := rfl

theorem stateInv_merge (s : SharedState)
    (r : Except SelectionError SelectionOutput) (h : StateInv s) :
    StateInv (mergeOutcome s r) := by
  cases r with
  | ok o =>
      rw [mergeOutcome_on_ok]
      by_cases himp : isImprovement s.result o = true
      · rw [if_pos himp]; rfl
      · rw [if_neg himp]; exact h
  | error e =>
      rw [mergeOutcome_on_error]
      by_cases hc : e = SelectionError.insufficientFunds ∧ s.any_success = false
      · rw [if_pos hc]
        show s.any_success = false
        exact hc.2
      · rw [if_neg hc]; exact h

theorem mergeOutcome_preserves_ok (s : SharedState)
    (r : Except SelectionError SelectionOutput) (b : SelectionOutput)
    (hinv : StateInv s) (hb : s.result = .ok b) :
    ∃ c, (mergeOutcome s r).result = .ok c ∧ c.waste.val ≤ b.waste.val := by
  cases r with
  | ok o =>
      rw [mergeOutcome_on_ok]
      by_cases himp : isImprovement s.result o = true
      · refine ⟨o, by rw [if_pos himp], ?_⟩
        have hd : decide (o.waste.val < b.waste.val) = true := by
          rw [hb, isImprovement_on_ok] at himp
          exact himp
        exact le_of_lt (of_decide_eq_true hd)
      · exact ⟨b, by rw [if_neg himp]; exact hb, le_rfl⟩
  | error e =>
      have hsucc : s.any_success = true := by
        rw [StateInv, hb] at hinv
        exact hinv
      have hc : ¬ (e = SelectionError.insufficientFunds ∧
          s.any_success = false) := by
        rintro ⟨-, h2⟩
        rw [hsucc] at h2
        cases h2
      rw [mergeOutcome_on_error, if_neg hc]
      exact ⟨b, hb, le_rfl⟩

theorem mergeOutcome_ok_result (s : SharedState) (o : SelectionOutput) :
    ∃ c, (mergeOutcome s (.ok o)).result = .ok c ∧
      c.waste.val ≤ o.waste.val := by
  rw [mergeOutcome_on_ok]
  by_cases himp : isImprovement s.result o = true
  · exact ⟨o, by rw [if_pos himp], le_rfl⟩
  · cases hres : s.result with
    | ok b =>
        rw [hres] at himp
        refine ⟨b, by rw [if_neg himp]; exact hres, ?_⟩
        have hlt : ¬ (o.waste.val < b.waste.val) := by
          intro hlt
          apply himp
          rw [isImprovement_on_ok]
          exact decide_eq_true hlt
        exact Nat.le_of_not_lt hlt
    | error e =>
        rw [hres] at himp
        exact absurd (isImprovement_on_error e o) himp

theorem mergeOutcome_ok_source (s : SharedState)
    (r : Except SelectionError SelectionOutput)
    (h : isSuccess (mergeOutcome s r).result = true) :
    isSuccess s.result = true ∨ isSuccess r = true := by
  cases r with
  | ok o => exact Or.inr rfl
  | error e =>
      left
      rw [mergeOutcome_on_error] at h
      by_cases hc : e = SelectionError.insufficientFunds ∧ s.any_success = false
      · rw [if_pos hc] at h
        cases h
      · rwa [if_neg hc] at h

theorem mergeOutcome_error_source (s : SharedState)
    (r : Except SelectionError SelectionOutput) (e : SelectionError)
    (h : (mergeOutcome s r).result = .error e) :
    s.result = .error e ∨
      (e = SelectionError.insufficientFunds ∧
        r = .error SelectionError.insufficientFunds) := by
  cases r with
  | ok o =>
      rw [mergeOutcome_on_ok] at h
      by_cases himp : isImprovement s.result o = true
      · rw [if_pos himp] at h
        cases h
      · rw [if_neg himp] at h
        exact Or.inl h
  | error e2 =>
      rw [mergeOutcome_on_error] at h
      by_cases hc : e2 = SelectionError.insufficientFunds ∧
          s.any_success = false
      · rw [if_pos hc] at h
        have he : SelectionError.insufficientFunds = e := by
          have := h
          injection this
        exact Or.inr ⟨he.symm, by rw [hc.1]⟩
      · rw [if_neg hc] at h
        exact Or.inl h

theorem runMerge_nil (s : SharedState) : runMerge [] s = s := rfl

theorem runMerge_cons (x : Except SelectionError SelectionOutput)
    (xs : List (Except SelectionError SelectionOutput)) (s : SharedState) :
    runMerge (x :: xs) s = runMerge xs (mergeOutcome s x) := rfl

theorem stateInv_runMerge (os : List (Except SelectionError SelectionOutput)) :
    ∀ s, StateInv s → StateInv (runMerge os s) := by
  induction os with
  | nil => intro s h; exact h
  | cons x xs ih =>
      intro s h
      rw [runMerge_cons]
      exact ih _ (stateInv_merge s x h)

theorem runMerge_preserves_ok
    (os : List (Except SelectionError SelectionOutput)) :
    ∀ s b, StateInv s → s.result = .ok b →
      ∃ c, (runMerge os s).result = .ok c ∧ c.waste.val ≤ b.waste.val := by
  induction os with
  | nil => intro s b _ hb; exact ⟨b, hb, le_rfl⟩
  | cons x xs ih =>
      intro s b hinv hb
      rw [runMerge_cons]
      obtain ⟨c, hc, hle⟩ := mergeOutcome_preserves_ok s x b hinv hb
      obtain ⟨d, hd, hle2⟩ := ih _ c (stateInv_merge s x hinv) hc
      exact ⟨d, hd, le_trans hle2 hle⟩

theorem runMerge_le_ok (os : List (Except SelectionError SelectionOutput)) :
    ∀ s, StateInv s → ∀ o : SelectionOutput, (.ok o) ∈ os →
      ∃ c, (runMerge os s).result = .ok c ∧ c.waste.val ≤ o.waste.val := by
  induction os with
  | nil => intro s _ o h; cases h
  | cons x xs ih =>
      intro s hinv o hmem
      rw [runMerge_cons]
      rcases List.mem_cons.mp hmem with heq | hmem2
      · subst heq
        obtain ⟨c, hc, hle⟩ := mergeOutcome_ok_result s o
        obtain ⟨d, hd, hle2⟩ :=
          runMerge_preserves_ok xs _ c (stateInv_merge _ _ hinv) hc
        exact ⟨d, hd, le_trans hle2 hle⟩
      · exact ih _ (stateInv_merge s x hinv) o hmem2

theorem runMerge_ok_source (os : List (Except SelectionError SelectionOutput)) :
    ∀ s, isSuccess (runMerge os s).result = true →
      isSuccess s.result = true ∨ ∃ x ∈ os, isSuccess x = true := by
  induction os with
  | nil => intro s h; exact Or.inl h
  | cons x xs ih =>
      intro s h
      rw [runMerge_cons] at h
      rcases ih _ h with h1 | ⟨y, hy, hys⟩
      · rcases mergeOutcome_ok_source s x h1 with h2 | h2
        · exact Or.inl h2
        · exact Or.inr ⟨x, List.mem_cons_self x xs, h2⟩
      · exact Or.inr ⟨y, List.mem_cons_of_mem x hy, hys⟩

theorem runMerge_error_source
    (os : List (Except SelectionError SelectionOutput)) :
    ∀ s e, (runMerge os s).result = .error e →
      s.result = .error e ∨
        (e = SelectionError.insufficientFunds ∧
          (.error SelectionError.insufficientFunds) ∈ os) := by
  induction os with
  | nil => intro s e h; exact Or.inl h
  | cons x xs ih =>
      intro s e h
      rw [runMerge_cons] at h
      rcases ih _ e h with h1 | ⟨he, hmem⟩
      · rcases mergeOutcome_error_source s x e h1 with h2 | ⟨he, hx⟩
        · exact Or.inl h2
        · subst hx
          exact Or.inr ⟨he, List.mem_cons_self _ _⟩
      · exact Or.inr ⟨he, List.mem_cons_of_mem x hmem⟩

theorem runMerge_error_fixed
    (os : List (Except SelectionError SelectionOutput)) :
    (∀ x ∈ os, isSuccess x = false) →
      runMerge os ⟨.error SelectionError.insufficientFunds, false⟩ =
        ⟨.error SelectionError.insufficientFunds, false⟩ := by
  induction os with
  | nil => intro _; rfl
  | cons x xs ih =>
      intro h
      rw [runMerge_cons]
      have hx := h x (List.mem_cons_self x xs)
      cases x with
      | ok o => cases hx
      | error e =>
          have hstep :
              mergeOutcome ⟨.error SelectionError.insufficientFunds, false⟩
                (.error e) =
              ⟨.error SelectionError.insufficientFunds, false⟩ := by
            rw [mergeOutcome_on_error]
            by_cases hc : e = SelectionError.insufficientFunds ∧
                (⟨.error SelectionError.insufficientFunds, false⟩ :
                  SharedState).any_success = false
            · rw [if_pos hc]
            · rw [if_neg hc]
          rw [hstep]
          exact ih (fun y hy => h y (List.mem_cons_of_mem _ hy))

theorem runMerge_reaches_insufficient
    (os : List (Except SelectionError SelectionOutput)) :
    ∀ e0, (∀ x ∈ os, isSuccess x = false) →
      (.error SelectionError.insufficientFunds) ∈ os →
      (runMerge os ⟨.error e0, false⟩).result =
        .error SelectionError.insufficientFunds := by
  induction os with
  | nil => intro e0 _ hmem; cases hmem
  | cons x xs ih =>
      intro e0 hfail hmem
      rw [runMerge_cons]
      by_cases hx : x = .error SelectionError.insufficientFunds
      · subst hx
        have hstep :
            mergeOutcome ⟨.error e0, false⟩
              (.error SelectionError.insufficientFunds) =
            ⟨.error SelectionError.insufficientFunds, false⟩ := by
          rw [mergeOutcome_on_error, if_pos ⟨rfl, rfl⟩]
        rw [hstep,
          runMerge_error_fixed xs (fun y hy => hfail y (List.mem_cons_of_mem _ hy))]
      · have hmem2 : (.error SelectionError.insufficientFunds) ∈ xs := by
          rcases List.mem_cons.mp hmem with heq | h2
          · exact absurd heq.symm hx
          · exact h2
        have hxfail := hfail x (List.mem_cons_self x xs)
        cases x with
        | ok o => cases hxfail
        | error e =>
            have hne : ¬ (e = SelectionError.insufficientFunds ∧
                (⟨.error e0, false⟩ : SharedState).any_success = false) := by
              rintro ⟨h1, -⟩
              exact hx (by rw [h1])
            have hstep : mergeOutcome ⟨.error e0, false⟩ (.error e) =
                ⟨.error e0, false⟩ := by
              rw [mergeOutcome_on_error, if_neg hne]
            rw [hstep]
            exact ih e0 (fun y hy => hfail y (List.mem_cons_of_mem _ hy)) hmem2

theorem runMerge_stays_nsf
    (os : List (Except SelectionError SelectionOutput)) :
    (∀ x ∈ os, isSuccess x = false) →
      (.error SelectionError.insufficientFunds) ∉ os →
      runMerge os ⟨.error SelectionError.noSolutionFound, false⟩ =
        ⟨.error SelectionError.noSolutionFound, false⟩ := by
  induction os with
  | nil => intro _ _; rfl
  | cons x xs ih =>
      intro hfail hnmem
      rw [runMerge_cons]
      have hxfail := hfail x (List.mem_cons_self x xs)
      cases x with
      | ok o => cases hxfail
      | error e =>
          have hne : e ≠ SelectionError.insufficientFunds := by
            intro h1
            exact hnmem (by rw [h1]; exact List.mem_cons_self _ _)
          have hstep :
              mergeOutcome ⟨.error SelectionError.noSolutionFound, false⟩
                (.error e) =
              ⟨.error SelectionError.noSolutionFound, false⟩ := by
            rw [mergeOutcome_on_error, if_neg (fun hc => hne hc.1)]
          rw [hstep]
          exact ih (fun y hy => hfail y (List.mem_cons_of_mem _ hy))
            (fun h2 => hnmem (List.mem_cons_of_mem _ h2))

theorem select_coin_eq_runMerge
    (bnb fifo ll srd knap : CoinSelectionFn)
    (inputs : List OutputGroup) (options : CoinSelectionOpt) :
    select_coin bnb fifo ll srd knap inputs options =
      (runMerge [bnb inputs options, fifo inputs options, ll inputs options,
        srd inputs options, knap inputs options] initialSharedState).result :=
  rfl

theorem isSuccess_iff (r : Except SelectionError SelectionOutput) :
    isSuccess r = true ↔ ∃ w, r = .ok w := by
  cases r with
  | ok w => simp [isSuccess]
  | error e => simp [isSuccess]

/-- Modelled from the spec: section 3, the value stored in the coin list at a
given index, zero when the index is out of range. -/
def valueAt : List OutputGroup → Nat → Nat
  | [], _ => 0
  | a :: _, 0 => a.value
  | _ :: l, j + 1 => valueAt l j

/-- Modelled from the spec: section 3, the weight stored in the coin list at a
given index, zero when the index is out of range. -/
def weightAt : List OutputGroup → Nat → Nat
  | [], _ => 0
  | a :: _, 0 => a.weight
  | _ :: l, j + 1 => weightAt l j

/-- Modelled from the spec: section 7, the sum of all candidate coin values. -/
def totalValue (inputs : List OutputGroup) : Nat :=
  (inputs.map OutputGroup.value).sum

/-- Modelled from the spec: section 7, the sum of all candidate coin weights. -/
def totalWeight (inputs : List OutputGroup) : Nat :=
  (inputs.map OutputGroup.weight).sum

/-- Modelled from the spec: section 3, the total value of the coins named by a
selected index list. -/
def selectedValue (inputs : List OutputGroup) (idxs : List Nat) : Nat :=
  (idxs.map (valueAt inputs)).sum

/-- Modelled from the spec: section 3, the total weight of the coins named by a
selected index list. -/
def selectedWeight (inputs : List OutputGroup) (idxs : List Nat) : Nat :=
  (idxs.map (weightAt inputs)).sum

/-- Modelled from the spec: section 4.1, the fee for a given total weight is
the weight times the target feerate rounded up, floored by the minimum
absolute fee. -/
def calculateFee (opts : CoinSelectionOpt) (weight : Nat) : Nat :=
  max (Int.toNat ⌈(weight : ℚ) * opts.target_feerate⌉) opts.min_absolute_fee

/-- Modelled from the spec: section 8, contract of every strategy on success:
the selected indices are valid and unique, and the selected value covers the
target plus the fee at the selected weight; the strategy sources themselves
are not available. -/
def SoundStrategy (alg : CoinSelectionFn) : Prop :=
  ∀ inputs opts out, alg inputs opts = .ok out →
    out.selected_inputs.Nodup ∧
    (∀ j ∈ out.selected_inputs, j < inputs.length) ∧
    opts.target_value +
        calculateFee opts
          (opts.base_weight + selectedWeight inputs out.selected_inputs) ≤
      selectedValue inputs out.selected_inputs

/-- Modelled from the spec: sections 4.4 to 4.6, the greedy and fallback
strategies fail with insufficient funds whenever even the sum of all coins
cannot cover the target at the required fee. -/
def ReportsInsufficiency (alg : CoinSelectionFn) : Prop :=
  ∀ inputs opts,
    totalValue inputs <
        opts.target_value +
          calculateFee opts (opts.base_weight + totalWeight inputs) →
      alg inputs opts = .error SelectionError.insufficientFunds

theorem calculateFee_mono (opts : CoinSelectionOpt)
    (hrate : 0 ≤ opts.target_feerate) {w1 w2 : Nat} (h : w1 ≤ w2) :
    calculateFee opts w1 ≤ calculateFee opts w2 := by
  unfold calculateFee
  refine max_le_max ?_ le_rfl
  refine Int.toNat_le_toNat (Int.ceil_mono ?_)
  exact mul_le_mul_of_nonneg_right (by exact_mod_cast h) hrate

theorem totalValue_eq_sum (l : List OutputGroup) :
    totalValue l = ∑ j in Finset.range l.length, valueAt l j := by
  induction l with
  | nil => simp [totalValue]
  | cons a l ih =>
      have hlen : (a :: l).length = l.length + 1 := rfl
      rw [hlen, Finset.sum_range_succ']
      have h0 : valueAt (a :: l) 0 = a.value := rfl
      have hsucc : ∀ j, valueAt (a :: l) (j + 1) = valueAt l j := fun j => rfl
      simp only [h0, hsucc]
      rw [← ih]
      show (List.map OutputGroup.value (a :: l)).sum = totalValue l + a.value
      rw [List.map_cons, List.sum_cons]
      rw [totalValue]
      omega

theorem selectedValue_le_totalValue (l : List OutputGroup) (idxs : List Nat)
    (hnd : idxs.Nodup) (hb : ∀ j ∈ idxs, j < l.length) :
    selectedValue l idxs ≤ totalValue l := by
  have h1 : selectedValue l idxs = ∑ j in idxs.toFinset, valueAt l j := by
    rw [selectedValue]
    exact (List.sum_toFinset _ hnd).symm
  rw [h1, totalValue_eq_sum]
  refine Finset.sum_le_sum_of_subset ?_
  intro j hj
  rw [Finset.mem_range]
  exact hb j (List.mem_toFinset.mp hj)

theorem sound_strategy_fails (alg : CoinSelectionFn)
    (hsound : SoundStrategy alg) (inputs : List OutputGroup)
    (opts : CoinSelectionOpt) (hrate : 0 ≤ opts.target_feerate)
    (hins : totalValue inputs <
      opts.target_value + calculateFee opts opts.base_weight) :
    isSuccess (alg inputs opts) = false := by
  cases halg : alg inputs opts with
  | ok out =>
      exfalso
      obtain ⟨hnd, hbound, hcover⟩ := hsound inputs opts out halg
      have h1 : selectedValue inputs out.selected_inputs ≤ totalValue inputs :=
        selectedValue_le_totalValue inputs out.selected_inputs hnd hbound
      have h2 : calculateFee opts opts.base_weight ≤
          calculateFee opts
            (opts.base_weight + selectedWeight inputs out.selected_inputs) :=
        calculateFee_mono opts hrate (Nat.le_add_right _ _)
      omega
  | error e => rfl

/-- Relational form of one worker merge (lines 47 to 63 of selectcoin.rs):
used to compare repeated runs of the orchestrator loop. -/
inductive MergeStep :
    SharedState → Except SelectionError SelectionOutput → SharedState → Prop
  | improve (s : SharedState) (o : SelectionOutput)
      (h : isImprovement s.result o = true) :
      MergeStep s (.ok o) ⟨.ok o, true⟩
  | keep (s : SharedState) (o : SelectionOutput)
      (h : isImprovement s.result o = false) :
      MergeStep s (.ok o) s
  | mark_insufficient (s : SharedState) (e : SelectionError)
      (he : e = SelectionError.insufficientFunds)
      (hs : s.any_success = false) :
      MergeStep s (.error e)
        ⟨.error SelectionError.insufficientFunds, s.any_success⟩
  | discard_error (s : SharedState) (e : SelectionError)
      (h : ¬ (e = SelectionError.insufficientFunds ∧
        s.any_success = false)) :
      MergeStep s (.error e) s

/-- Relational form of the whole orchestrator loop: one merge step per
strategy outcome, in order. -/
inductive OrchRun :
    SharedState → List (Except SelectionError SelectionOutput) →
      SharedState → Prop
  | done (s : SharedState) : OrchRun s [] s
  | step {s s2 t : SharedState} {x : Except SelectionError SelectionOutput}
      {xs : List (Except SelectionError SelectionOutput)}
      (h1 : MergeStep s x s2) (h2 : OrchRun s2 xs t) : OrchRun s (x :: xs) t

theorem mergeStep_eq (s : SharedState)
    (x : Except SelectionError SelectionOutput) (t : SharedState)
    (h : MergeStep s x t) : t = mergeOutcome s x := by
  cases h with
  | improve o h =>
      rw [mergeOutcome_on_ok, if_pos h]
  | keep o h =>
      rw [mergeOutcome_on_ok, if_neg (by rw [h]; exact Bool.false_ne_true)]
  | mark_insufficient e he hs =>
      subst he
      rw [mergeOutcome_on_error, if_pos ⟨rfl, hs⟩]
  | discard_error e h =>
      rw [mergeOutcome_on_error, if_neg h]

theorem mergeStep_total (s : SharedState)
    (x : Except SelectionError SelectionOutput) :
    MergeStep s x (mergeOutcome s x) := by
  cases x with
  | ok o =>
      by_cases h : isImprovement s.result o = true
      · rw [mergeOutcome_on_ok, if_pos h]
        exact MergeStep.improve s o h
      · have h2 : isImprovement s.result o = false := by
          revert h
          cases isImprovement s.result o
          · intro _; rfl
          · intro h; exact absurd rfl h
        rw [mergeOutcome_on_ok, if_neg h]
        exact MergeStep.keep s o h2
  | error e =>
      by_cases h : e = SelectionError.insufficientFunds ∧
          s.any_success = false
      · rw [mergeOutcome_on_error, if_pos h]
        exact MergeStep.mark_insufficient s e h.1 h.2
      · rw [mergeOutcome_on_error, if_neg h]
        exact MergeStep.discard_error s e h

theorem orchRun_eq (os : List (Except SelectionError SelectionOutput)) :
    ∀ s t, OrchRun s os t → t = runMerge os s := by
  induction os with
  | nil =>
      intro s t h
      cases h
      rfl
  | cons x xs ih =>
      intro s t h
      cases h with
      | step h1 h2 =>
          rw [runMerge_cons]
          have hx := mergeStep_eq _ _ _ h1
          subst hx
          exact ih _ _ h2

theorem orchRun_exists (os : List (Except SelectionError SelectionOutput)) :
    ∀ s, OrchRun s os (runMerge os s) := by
  induction os with
  | nil => intro s; exact OrchRun.done s
  | cons x xs ih =>
      intro s
      rw [runMerge_cons]
      exact OrchRun.step (mergeStep_total s x) (ih _)

/-- Modelled from the spec: sections 4.4 to 4.6, a minimal strategy that only
performs the insufficiency check those sections require and otherwise gives
up; it satisfies both strategy contracts and serves as a concrete instance. -/
def specProbe : CoinSelectionFn := fun inputs opts =>
  if totalValue inputs <
      opts.target_value +
        calculateFee opts (opts.base_weight + totalWeight inputs) then
    .error SelectionError.insufficientFunds
  else
    .error SelectionError.noSolutionFound

theorem specProbe_sound : SoundStrategy specProbe := by
  intro inputs opts out h
  simp only [specProbe] at h
  split at h <;> cases h

theorem specProbe_reports : ReportsInsufficiency specProbe := by
  intro inputs opts h
  simp only [specProbe]
  rw [if_pos h]

def wOut1 : SelectionOutput := { selected_inputs := [0], waste := ⟨5⟩ }

def wOut2 : SelectionOutput := { selected_inputs := [1], waste := ⟨3⟩ }

def wOut3 : SelectionOutput := { selected_inputs := [2], waste := ⟨5⟩ }

def algOkFive : CoinSelectionFn := fun _ _ => .ok wOut1

def algOkThree : CoinSelectionFn := fun _ _ => .ok wOut2

def algNoSolution : CoinSelectionFn := fun _ _ =>
  .error SelectionError.noSolutionFound

def algInsufficient : CoinSelectionFn := fun _ _ =>
  .error SelectionError.insufficientFunds

def wInputs : List OutputGroup :=
  [⟨1000, 100, 1, none⟩, ⟨2000, 200, 1, none⟩, ⟨3000, 300, 1, none⟩]

def wOpts : CoinSelectionOpt :=
  ⟨1500, 2/5, some (2/5), 0, 10, 50, 10, 20, 10, 500, ExcessStrategy.toChange⟩

def wOpts7000 : CoinSelectionOpt :=
  ⟨7000, 2/5, some (2/5), 0, 10, 50, 10, 20, 10, 500, ExcessStrategy.toChange⟩

/-- C1: whenever select_coin succeeds, the waste of the returned output is at
most the waste of every successful outcome produced by any of the five
strategy functions on the same coin list and options: the orchestrator
returns a minimum-waste success. -/
theorem select_coin_waste_minimal
    (bnb fifo ll srd knap : CoinSelectionFn)
    (inputs : List OutputGroup) (options : CoinSelectionOpt)
    (out : SelectionOutput)
    (hsel : select_coin bnb fifo ll srd knap inputs options = .ok out) :
    ∀ alg ∈ [bnb, fifo, ll, srd, knap], ∀ w, alg inputs options = .ok w →
      out.waste.val ≤ w.waste.val := by
  intro alg halg w hw
  rw [select_coin_eq_runMerge] at hsel
  have hmem : alg inputs options ∈
      [bnb inputs options, fifo inputs options, ll inputs options,
        srd inputs options, knap inputs options] := by
    simp only [List.mem_cons, List.not_mem_nil, or_false] at halg
    rcases halg with h | h | h | h | h <;> subst h <;> simp [List.mem_cons]
  rw [hw] at hmem
  obtain ⟨c, hc, hle⟩ :=
    runMerge_le_ok _ initialSharedState stateInv_initial w hmem
  rw [hsel] at hc
  injection hc with hoc
  rw [hoc]
  exact hle

theorem select_coin_waste_minimal_witness :
    wOut2.waste.val ≤ wOut1.waste.val :=
  select_coin_waste_minimal algOkFive algOkThree algNoSolution algNoSolution
    algNoSolution wInputs wOpts wOut2 rfl algOkFive
    (List.mem_cons_self _ _) wOut1 rfl

/-- C2: select_coin returns a success if and only if at least one of the five
strategy functions returns a success on the same coin list and options; it
returns an error exactly when all five fail. -/
theorem select_coin_ok_iff_some_strategy_ok
    (bnb fifo ll srd knap : CoinSelectionFn)
    (inputs : List OutputGroup) (options : CoinSelectionOpt) :
    isSuccess (select_coin bnb fifo ll srd knap inputs options) = true ↔
      (isSuccess (bnb inputs options) = true ∨
        isSuccess (fifo inputs options) = true ∨
        isSuccess (ll inputs options) = true ∨
        isSuccess (srd inputs options) = true ∨
        isSuccess (knap inputs options) = true) := by
  rw [select_coin_eq_runMerge]
  constructor
  · intro h
    rcases runMerge_ok_source _ initialSharedState h with h1 | ⟨x, hx, hxs⟩
    · exact absurd h1 (by decide)
    · simp only [List.mem_cons, List.not_mem_nil, or_false] at hx
      rcases hx with h | h | h | h | h <;> subst h <;> tauto
  · intro h
    have hmem : ∃ x ∈ [bnb inputs options, fifo inputs options,
        ll inputs options, srd inputs options, knap inputs options],
        isSuccess x = true := by
      rcases h with h | h | h | h | h
      · exact ⟨_, List.mem_cons_self _ _, h⟩
      · exact ⟨_, List.mem_cons_of_mem _ (List.mem_cons_self _ _), h⟩
      · exact ⟨_, List.mem_cons_of_mem _
          (List.mem_cons_of_mem _ (List.mem_cons_self _ _)), h⟩
      · exact ⟨_, List.mem_cons_of_mem _ (List.mem_cons_of_mem _
          (List.mem_cons_of_mem _ (List.mem_cons_self _ _))), h⟩
      · exact ⟨_, List.mem_cons_of_mem _ (List.mem_cons_of_mem _
          (List.mem_cons_of_mem _
            (List.mem_cons_of_mem _ (List.mem_cons_self _ _)))), h⟩
    obtain ⟨x, hx, hxs⟩ := hmem
    obtain ⟨w, hw⟩ := (isSuccess_iff x).mp hxs
    subst hw
    obtain ⟨c, hc, -⟩ :=
      runMerge_le_ok _ initialSharedState stateInv_initial w hx
    rw [hc]
    rfl

theorem select_coin_ok_iff_some_strategy_ok_witness :
    isSuccess (select_coin algOkFive algNoSolution algNoSolution algNoSolution
      algNoSolution wInputs wOpts) = true :=
  (select_coin_ok_iff_some_strategy_ok algOkFive algNoSolution algNoSolution
    algNoSolution algNoSolution wInputs wOpts).mpr (Or.inl rfl)

/-- C3: when every strategy fails, select_coin reports insufficient funds
exactly when at least one strategy reported insufficient funds, and reports no
solution found otherwise. -/
theorem select_coin_all_fail_classification
    (bnb fifo ll srd knap : CoinSelectionFn)
    (inputs : List OutputGroup) (options : CoinSelectionOpt)
    (hfail : ∀ alg ∈ [bnb, fifo, ll, srd, knap],
      isSuccess (alg inputs options) = false) :
    ((.error SelectionError.insufficientFunds :
        Except SelectionError SelectionOutput) ∈
        [bnb inputs options, fifo inputs options, ll inputs options,
          srd inputs options, knap inputs options] →
      select_coin bnb fifo ll srd knap inputs options =
        .error SelectionError.insufficientFunds) ∧
    ((.error SelectionError.insufficientFunds :
        Except SelectionError SelectionOutput) ∉
        [bnb inputs options, fifo inputs options, ll inputs options,
          srd inputs options, knap inputs options] →
      select_coin bnb fifo ll srd knap inputs options =
        .error SelectionError.noSolutionFound) := by
  have hofail : ∀ x ∈ [bnb inputs options, fifo inputs options,
      ll inputs options, srd inputs options, knap inputs options],
      isSuccess x = false := by
    intro x hx
    simp only [List.mem_cons, List.not_mem_nil, or_false] at hx
    rcases hx with h | h | h | h | h <;> subst h
    · exact hfail bnb (List.mem_cons_self _ _)
    · exact hfail fifo (List.mem_cons_of_mem _ (List.mem_cons_self _ _))
    · exact hfail ll (List.mem_cons_of_mem _
        (List.mem_cons_of_mem _ (List.mem_cons_self _ _)))
    · exact hfail srd (List.mem_cons_of_mem _ (List.mem_cons_of_mem _
        (List.mem_cons_of_mem _ (List.mem_cons_self _ _))))
    · exact hfail knap (List.mem_cons_of_mem _ (List.mem_cons_of_mem _
        (List.mem_cons_of_mem _
          (List.mem_cons_of_mem _ (List.mem_cons_self _ _)))))
  constructor
  · intro hmem
    rw [select_coin_eq_runMerge]
    exact runMerge_reaches_insufficient _ SelectionError.noSolutionFound
      hofail hmem
  · intro hnmem
    rw [select_coin_eq_runMerge,
      show initialSharedState =
        (⟨.error SelectionError.noSolutionFound, false⟩ : SharedState)
        from rfl,
      runMerge_stays_nsf _ hofail hnmem]

theorem select_coin_all_fail_classification_witness :
    select_coin algInsufficient algNoSolution algNoSolution algNoSolution
      algNoSolution wInputs wOpts7000 =
      .error SelectionError.insufficientFunds :=
  (select_coin_all_fail_classification algInsufficient algNoSolution
    algNoSolution algNoSolution algNoSolution wInputs wOpts7000
    (by
      intro alg h
      simp only [List.mem_cons, List.not_mem_nil, or_false] at h
      rcases h with h | h | h | h | h <;> subst h <;> rfl)).1
    (List.mem_cons_self _ _)

/-- C4: once a success has been recorded in the shared state, processing any
further strategy outcome never replaces the stored success with an
insufficient-funds failure: the merged state still holds a success. -/
theorem mergeOutcome_never_downgrades_success (s : SharedState)
    (r : Except SelectionError SelectionOutput) (hinv : StateInv s)
    (hrec : s.any_success = true) :
    ∃ c, (mergeOutcome s r).result = .ok c := by
  have hok : ∃ b, s.result = .ok b := by
    have hinv2 : s.any_success = isSuccess s.result := hinv
    rw [hrec] at hinv2
    cases hres : s.result with
    | ok b => exact ⟨b, rfl⟩
    | error e =>
        rw [hres] at hinv2
        exact Bool.noConfusion hinv2
  obtain ⟨b, hb⟩ := hok
  obtain ⟨c, hc, -⟩ := mergeOutcome_preserves_ok s r b hinv hb
  exact ⟨c, hc⟩

theorem mergeOutcome_never_downgrades_success_witness :
    ∃ c, (mergeOutcome ⟨.ok wOut1, true⟩
      (.error SelectionError.insufficientFunds)).result = .ok c :=
  mergeOutcome_never_downgrades_success ⟨.ok wOut1, true⟩
    (.error SelectionError.insufficientFunds) rfl rfl

/-- C5: a success whose waste equals the currently recorded best does not
replace it: the merge step leaves the shared state unchanged, so the result is
the outcome whose write reached the shared state first. -/
theorem mergeOutcome_equal_waste_keeps_current (s : SharedState)
    (b o : SelectionOutput) (hb : s.result = .ok b)
    (heq : o.waste.val = b.waste.val) :
    mergeOutcome s (.ok o) = s := by
  rw [mergeOutcome_on_ok]
  have himp : isImprovement s.result o = false := by
    rw [hb, isImprovement_on_ok, heq]
    exact decide_eq_false (lt_irrefl _)
  rw [if_neg (by rw [himp]; exact Bool.false_ne_true)]

theorem mergeOutcome_equal_waste_keeps_current_witness :
    mergeOutcome ⟨.ok wOut1, true⟩ (.ok wOut3) = ⟨.ok wOut1, true⟩ :=
  mergeOutcome_equal_waste_keeps_current ⟨.ok wOut1, true⟩ wOut1 wOut3 rfl rfl

/-- C6: select_coin merges the outcome of every one of the five strategies,
each applied exactly once to the given coin list and options, in the fixed
order bnb, fifo, lowestlarger, srd, knapsack, unconditionally: no strategy is
skipped whatever the other outcomes are. -/
theorem select_coin_merges_every_strategy_once
    (bnb fifo ll srd knap : CoinSelectionFn)
    (inputs : List OutputGroup) (options : CoinSelectionOpt) :
    select_coin bnb fifo ll srd knap inputs options =
      (mergeOutcome (mergeOutcome (mergeOutcome (mergeOutcome
        (mergeOutcome initialSharedState (bnb inputs options))
        (fifo inputs options)) (ll inputs options)) (srd inputs options))
        (knap inputs options)).result := rfl

/-- C7: when the sum of all candidate coin values is below the target plus the
minimum possible fee, select_coin fails with insufficient funds; the five
strategies are constrained by their spec contracts since their sources are
not available. -/
theorem select_coin_insufficient_total_funds
    (bnb fifo ll srd knap : CoinSelectionFn)
    (inputs : List OutputGroup) (opts : CoinSelectionOpt)
    (hb : SoundStrategy bnb) (hf : SoundStrategy fifo)
    (hl : SoundStrategy ll) (hs : SoundStrategy srd)
    (hk : SoundStrategy knap)
    (hrep : ReportsInsufficiency fifo)
    (hrate : 0 ≤ opts.target_feerate)
    (hins : totalValue inputs <
      opts.target_value + calculateFee opts opts.base_weight) :
    select_coin bnb fifo ll srd knap inputs opts =
      .error SelectionError.insufficientFunds := by
  have hfull : totalValue inputs <
      opts.target_value +
        calculateFee opts (opts.base_weight + totalWeight inputs) :=
    lt_of_lt_of_le hins
      (Nat.add_le_add_left
        (calculateFee_mono opts hrate (Nat.le_add_right _ _)) _)
  have hfifo := hrep inputs opts hfull
  have hofail : ∀ x ∈ [bnb inputs opts, fifo inputs opts, ll inputs opts,
      srd inputs opts, knap inputs opts], isSuccess x = false := by
    intro x hx
    simp only [List.mem_cons, List.not_mem_nil, or_false] at hx
    rcases hx with h | h | h | h | h <;> subst h
    · exact sound_strategy_fails bnb hb inputs opts hrate hins
    · exact sound_strategy_fails fifo hf inputs opts hrate hins
    · exact sound_strategy_fails ll hl inputs opts hrate hins
    · exact sound_strategy_fails srd hs inputs opts hrate hins
    · exact sound_strategy_fails knap hk inputs opts hrate hins
  have hmem : (.error SelectionError.insufficientFunds :
      Except SelectionError SelectionOutput) ∈
      [bnb inputs opts, fifo inputs opts, ll inputs opts,
        srd inputs opts, knap inputs opts] := by
    apply List.mem_cons_of_mem
    rw [← hfifo]
    exact List.mem_cons_self _ _
  rw [select_coin_eq_runMerge]
  exact runMerge_reaches_insufficient _ SelectionError.noSolutionFound
    hofail hmem

theorem select_coin_insufficient_total_funds_witness :
    select_coin specProbe specProbe specProbe specProbe specProbe
      wInputs wOpts7000 = .error SelectionError.insufficientFunds :=
  select_coin_insufficient_total_funds specProbe specProbe specProbe specProbe
    specProbe wInputs wOpts7000 specProbe_sound specProbe_sound specProbe_sound
    specProbe_sound specProbe_sound specProbe_reports
    (by norm_num [wOpts7000])
    (lt_of_lt_of_le (by decide) (Nat.le_add_right 7000 _))

/-- C9: when select_coin fails, the returned error is either the initial
no-solution-found value or an insufficient-funds failure actually reported by
one of the strategies; no other error is ever propagated to the caller. -/
theorem select_coin_error_provenance
    (bnb fifo ll srd knap : CoinSelectionFn)
    (inputs : List OutputGroup) (options : CoinSelectionOpt)
    (e : SelectionError)
    (h : select_coin bnb fifo ll srd knap inputs options = .error e) :
    e = SelectionError.noSolutionFound ∨
      (e = SelectionError.insufficientFunds ∧
        (.error SelectionError.insufficientFunds :
          Except SelectionError SelectionOutput) ∈
          [bnb inputs options, fifo inputs options, ll inputs options,
            srd inputs options, knap inputs options]) := by
  rw [select_coin_eq_runMerge] at h
  rcases runMerge_error_source _ initialSharedState e h with h1 | h2
  · left
    have h3 : (.error SelectionError.noSolutionFound :
        Except SelectionError SelectionOutput) = .error e := h1
    injection h3 with h4
    exact h4.symm
  · exact Or.inr h2

theorem select_coin_error_provenance_witness :
    SelectionError.noSolutionFound = SelectionError.noSolutionFound ∨
      (SelectionError.noSolutionFound = SelectionError.insufficientFunds ∧
        (.error SelectionError.insufficientFunds :
          Except SelectionError SelectionOutput) ∈
          [algNoSolution wInputs wOpts, algNoSolution wInputs wOpts,
            algNoSolution wInputs wOpts, algNoSolution wInputs wOpts,
            algNoSolution wInputs wOpts]) :=
  select_coin_error_provenance algNoSolution algNoSolution algNoSolution
    algNoSolution algNoSolution wInputs wOpts
    SelectionError.noSolutionFound rfl

/-- C10: the orchestrator merges the strategy outcomes in the fixed order bnb,
fifo, lowestlarger, srd, knapsack, joining each worker before the next one
starts; therefore any two runs of the loop on identical strategy outcomes end
in states holding the same result, and that result is the value select_coin
returns: select_coin is deterministic once the strategies are. -/
theorem select_coin_deterministic_runs
    (bnb fifo ll srd knap : CoinSelectionFn)
    (inputs : List OutputGroup) (options : CoinSelectionOpt)
    (t1 t2 : SharedState)
    (h1 : OrchRun initialSharedState
      [bnb inputs options, fifo inputs options, ll inputs options,
        srd inputs options, knap inputs options] t1)
    (h2 : OrchRun initialSharedState
      [bnb inputs options, fifo inputs options, ll inputs options,
        srd inputs options, knap inputs options] t2) :
    t1.result = t2.result ∧
      t1.result = select_coin bnb fifo ll srd knap inputs options := by
  have e1 := orchRun_eq _ _ _ h1
  have e2 := orchRun_eq _ _ _ h2
  subst e1
  subst e2
  exact ⟨rfl,
    (select_coin_eq_runMerge bnb fifo ll srd knap inputs options).symm⟩

theorem select_coin_deterministic_runs_witness :
    (runMerge [algNoSolution wInputs wOpts, algNoSolution wInputs wOpts,
      algNoSolution wInputs wOpts, algNoSolution wInputs wOpts,
      algNoSolution wInputs wOpts] initialSharedState).result =
      (runMerge [algNoSolution wInputs wOpts, algNoSolution wInputs wOpts,
        algNoSolution wInputs wOpts, algNoSolution wInputs wOpts,
        algNoSolution wInputs wOpts] initialSharedState).result ∧
    (runMerge [algNoSolution wInputs wOpts, algNoSolution wInputs wOpts,
      algNoSolution wInputs wOpts, algNoSolution wInputs wOpts,
      algNoSolution wInputs wOpts] initialSharedState).result =
      select_coin algNoSolution algNoSolution algNoSolution algNoSolution
        algNoSolution wInputs wOpts :=
  select_coin_deterministic_runs algNoSolution algNoSolution algNoSolution
    algNoSolution algNoSolution wInputs wOpts _ _
    (orchRun_exists _ _) (orchRun_exists _ _)
